import Mathlib

/-!
Verification development for the ObsidianBackLinker repository (`app.py`).

The program is embedded shallowly: document content and titles are lists of
characters (`Chars`), a vault is a list of documents, and every operation of
the source (`parse_links`, `find_text_references`, `generate_backlinks`,
`update_files_with_backlinks`) is an executable Lean function mirroring the
Python code, including the exact semantics of the regular expressions the
source uses.

One deliberate modelling choice: Python's `set(links + text_refs)` iterates
in an unspecified (hash-dependent) order.  We model it as deduplication
keeping the first occurrence (`dedupFirst`).  The final file contents are
insensitive to this order because each source document contributes at most
one backlink entry per target, so the only effect of the order is the key
creation order of the index dictionary.
-/

namespace BackLinker

abbrev Chars := List Char

/-- Characters of a string literal. -/
def str (s : String) : Chars := s.data

/-- `leadsWith pat text`: `text` starts with `pat`. -/
def leadsWith : Chars → Chars → Bool
  | [], _ => true
  | _ :: _, [] => false
  | p :: ps, c :: cs => p == c && leadsWith ps cs

/-- `containsSub pat text`: `pat` occurs somewhere inside `text`
(Python `re.search` on an escaped literal / `in` operator). -/
def containsSub (pat : Chars) : Chars → Bool
  | [] => pat.isEmpty
  | c :: rest => leadsWith pat (c :: rest) || containsSub pat rest

/-- `trailsWith pat text`: `text` ends with `pat` (Python `str.endswith`). -/
def trailsWith (pat text : Chars) : Bool :=
  leadsWith pat.reverse text.reverse

theorem leadsWith_length {pat text : Chars} (h : leadsWith pat text = true) :
    pat.length ≤ text.length := by
  induction pat generalizing text with
  | nil => simp
  | cons p ps ih =>
    cases text with
    | nil => simp [leadsWith] at h
    | cons c cs =>
      simp only [leadsWith, Bool.and_eq_true] at h
      have := ih h.2
      simp only [List.length_cons]
      omega

theorem leadsWith_append (pat rest : Chars) :
    leadsWith pat (pat ++ rest) = true := by
  induction pat with
  | nil => simp [leadsWith]
  | cons p ps ih => simp [leadsWith, ih]

theorem leadsWith_iff (pat text : Chars) :
    leadsWith pat text = true ↔ ∃ rest, text = pat ++ rest := by
  constructor
  · intro h
    induction pat generalizing text with
    | nil => exact ⟨text, rfl⟩
    | cons p ps ih =>
      cases text with
      | nil => simp [leadsWith] at h
      | cons c cs =>
        simp only [leadsWith, Bool.and_eq_true, beq_iff_eq] at h
        obtain ⟨r, hr⟩ := ih cs h.2
        exact ⟨r, by simp [h.1, hr]⟩
  · rintro ⟨rest, rfl⟩
    exact leadsWith_append pat rest

/-! ### Explicit-link extraction

Source (`app.py`, `parse_links`):
  `wiki_links = re.findall(r'\[\[(.*?)(?:\|.*?)?\]\]', content)`

The scanner below implements exactly the leftmost, non-greedy backtracking
semantics of that pattern: at each `[[`, the capture group grows one
(non-newline) character at a time; at each growth step the optional
`(?:\|.*?)?` branch is tried first (a `|` followed by a minimal non-newline
stretch up to `]]`), then the bare `]]`; on overall failure the scan resumes
one character later.  `re.findall` returns the first capture group of each
match and resumes after each match.
-/

/-- Inner `.*?` of `(?:\|.*?)?\]\]` after a `|`: scan non-newline characters
for the first `]]`; return the remainder after it. -/
def dropToClose : Chars → Option Chars
  | [] => none
  | [_] => none
  | c1 :: c2 :: rest =>
    if c1 = ']' ∧ c2 = ']' then some rest
    else if c1 = '\n' then none
    else dropToClose (c2 :: rest)

/-- Body of a link attempt, positioned just after `[[`.  Returns the capture
(group 1) and the remainder after the closing `]]`, or `none` if the pattern
cannot match here. -/
def linkBody : Chars → Option (Chars × Chars)
  | [] => none
  | [_] => none
  | c1 :: c2 :: rest =>
    if c1 = ']' ∧ c2 = ']' then some ([], rest)
    else if c1 = '|' then
      match dropToClose (c2 :: rest) with
      | some r => some ([], r)
      | none =>
        match linkBody (c2 :: rest) with
        | some (cap, r) => some ('|' :: cap, r)
        | none => none
    else if c1 = '\n' then none
    else
      match linkBody (c2 :: rest) with
      | some (cap, r) => some (c1 :: cap, r)
      | none => none

theorem dropToClose_length : ∀ {l r : Chars}, dropToClose l = some r →
    r.length + 2 ≤ l.length := by
  intro l
  induction l with
  | nil => intro r h; simp [dropToClose] at h
  | cons c1 tail ih =>
    cases tail with
    | nil => intro r h; simp [dropToClose] at h
    | cons c2 rest =>
      intro r h
      simp only [dropToClose] at h
      split at h
      · simp only [Option.some.injEq] at h
        subst h
        simp only [List.length_cons]
        omega
      · split at h
        · exact absurd h (by simp)
        · have := ih h
          simp only [List.length_cons] at this ⊢
          omega

theorem linkBody_length : ∀ {l : Chars} {cap r : Chars},
    linkBody l = some (cap, r) → r.length < l.length := by
  intro l
  induction l with
  | nil => intro cap r h; simp [linkBody] at h
  | cons c1 tail ih =>
    cases tail with
    | nil => intro cap r h; simp [linkBody] at h
    | cons c2 rest =>
      intro cap r h
      simp only [linkBody] at h
      split at h
      · simp only [Option.some.injEq, Prod.mk.injEq] at h
        simp only [List.length_cons, ← h.2]
        omega
      · split at h
        · split at h
          next r' hdrop =>
            simp only [Option.some.injEq, Prod.mk.injEq] at h
            have := dropToClose_length hdrop
            simp only [List.length_cons, ← h.2] at *
            omega
          next hdrop =>
            split at h
            next cap' r' hbody =>
              simp only [Option.some.injEq, Prod.mk.injEq] at h
              have := ih hbody
              simp only [List.length_cons, ← h.2] at *
              omega
            next => exact absurd h (by simp)
        · split at h
          · exact absurd h (by simp)
          · split at h
            next cap' r' hbody =>
              simp only [Option.some.injEq, Prod.mk.injEq] at h
              have := ih hbody
              simp only [List.length_cons, ← h.2] at *
              omega
            next => exact absurd h (by simp)

/-- Full scan of the content for wiki-link matches, carrying the absolute
position; returns, for each match, its span `(start, stop)` over the content
(start of `[[` to just after `]]`) together with the captured target.

The first argument is fuel making the recursion structural; every recursive
call strictly shrinks the remaining character list, so any fuel exceeding
the content length makes the zero-fuel branch unreachable (`wikiScan` below
passes `length + 1`). -/
def wikiScanF : Nat → Nat → Chars → List (Nat × Nat × Chars)
  | 0, _, _ => []
  | _ + 1, _, [] => []
  | _ + 1, _, [_] => []
  | fuel + 1, pos, c1 :: c2 :: rest =>
    if c1 = '[' ∧ c2 = '[' then
      match linkBody rest with
      | some (cap, r) =>
        (pos, pos + 2 + (rest.length - r.length), cap) ::
          wikiScanF fuel (pos + 2 + (rest.length - r.length)) r
      | none => wikiScanF fuel (pos + 1) (c2 :: rest)
    else wikiScanF fuel (pos + 1) (c2 :: rest)

/-- All wiki-link matches of the content, with spans. -/
def wikiScan (content : Chars) : List (Nat × Nat × Chars) :=
  wikiScanF (content.length + 1) 0 content

/-- `parse_links` of the source: the captured targets of all wiki-link
matches, in match order. -/
def parse_links (content : Chars) : List Chars :=
  (wikiScan content).map (fun t => t.2.2)

/-! ### Literal-text extraction

Source (`app.py`, `find_text_references`):
```
pattern = r'(?<!\[\[)' + re.escape(title) + r'(?!\]\])'
if re.search(pattern, content): references.append(title)
```
`re.search` succeeds iff at some position the escaped title occurs
literally, the two characters immediately before that position are not
`[[` (vacuously true within two characters of the start), and the two
characters immediately after the occurrence are not `]]`.
-/

/-- The lookaround pattern matching at position `i` of the content: the
title occurs literally at `i`, the two characters at `i-2, i-1` are not
`[[` (a negative lookbehind is vacuously satisfied when fewer than two
characters precede), and the two characters right after the occurrence are
not `]]` (vacuous near the end likewise, which `leadsWith` gives for
free). -/
def posHit (title content : Chars) (i : Nat) : Bool :=
  leadsWith title (content.drop i)
    && !(decide (2 ≤ i) && leadsWith (str "[[") (content.drop (i - 2)))
    && !(leadsWith (str "]]") (content.drop (i + title.length)))

/-- Truthiness of `re.search` of the lookaround pattern: some position of
the content matches.  (Positions beyond the content length cannot carry an
occurrence of a nonempty title, so the range bound is exhaustive.) -/
def reSearchText (title content : Chars) : Bool :=
  (List.range (content.length + 1)).any (posHit title content)

/-- `find_text_references` of the source: every known title of length at
least 3 whose lookaround pattern matches somewhere in the content, in
title-list order. -/
def find_text_references (content : Chars) (note_titles : List Chars) : List Chars :=
  note_titles.filter (fun t => 3 ≤ t.length && reSearchText t content)

/-! ### Titles, documents and the backlink index -/

/-- `os.path.basename` (POSIX): the part after the last `/`. -/
def basename (p : Chars) : Chars :=
  p.foldl (fun acc c => if c = '/' then [] else acc ++ [c]) []

/-- Index of the last `.` in the list, if any. -/
def lastDotIdx (b : Chars) : Option Nat :=
  (List.range b.length).foldl (fun acc i => if b.getD i ' ' = '.' then some i else acc) none

/-- Root part of `os.path.splitext` on a basename: cut at the last dot
unless every character before it is a dot (leading dots are not an
extension). -/
def splitextRoot (b : Chars) : Chars :=
  match lastDotIdx b with
  | none => b
  | some i => if (b.take i).all (fun c => c = '.') then b else b.take i

/-- `extract_note_title` of the source: filename without extension. -/
def extract_note_title (path : Chars) : Chars :=
  splitextRoot (basename path)

/-- A document of the vault: its path (identity) and its text content.
Reading the file is the Document Source collaborator; the content field
stands for what `open(...).read()` returns. -/
structure Doc where
  path : Chars
  content : Chars
deriving DecidableEq

/-- Deterministic stand-in for Python's `set(links + text_refs)`:
deduplicate keeping the first occurrence.  (See the header note: the final
file contents do not depend on the iteration order of the set.) -/
def dedupFirst (l : List Chars) : List Chars :=
  l.foldl (fun acc x => if x ∈ acc then acc else acc ++ [x]) []

/-- A backlink entry: (source title, source path). -/
abbrev Entry := Chars × Chars

/-- The backlink index: association list target path → entries, in key
creation order (Python `defaultdict(list)` insertion order). -/
abbrev Index := List (Chars × List Entry)

/-- `backlinks[target].append(e)` on the association list. -/
def appendEntry : Index → Chars → Entry → Index
  | [], target, e => [(target, [e])]
  | (k, v) :: rest, target, e =>
    if k = target then (k, v ++ [e]) :: rest
    else (k, v) :: appendEntry rest target e

/-- Lookup in the index; missing targets give `[]` (`defaultdict`). -/
def lookupIdx : Index → Chars → List Entry
  | [], _ => []
  | (k, v) :: rest, t => if k = t then v else lookupIdx rest t

/-- `file_title_map[r]`: the dict `{extract_note_title(f): f}` keeps, per
title, the last file registered with it; `none` when `r not in` the dict. -/
def titleLookup (vault : List Doc) (r : Chars) : Option Chars :=
  ((vault.filter (fun d => extract_note_title d.path == r)).getLast?).map Doc.path

/-- The combined reference titles of one document: explicit links plus
literal-text references, deduplicated (`set(links + text_refs)`). -/
def docRefs (vault : List Doc) (d : Doc) : List Chars :=
  let note_titles := vault.map (fun x => extract_note_title x.path)
  dedupFirst (parse_links d.content ++ find_text_references d.content note_titles)

/-- Recording of one reference of the scan loop: resolvable references are
appended against their target, unresolvable ones are skipped
(`if ref in file_title_map`). -/
def refStep (vault : List Doc) (e : Entry) (acc : Index) (ref : Chars) : Index :=
  match titleLookup vault ref with
  | some target => appendEntry acc target e
  | none => acc

/-- One iteration of the scan loop of `generate_backlinks`: record every
resolvable reference of `d` against its target. -/
def addDocRefs (vault : List Doc) (idx : Index) (d : Doc) : Index :=
  (docRefs vault d).foldl (refStep vault (extract_note_title d.path, d.path)) idx

/-- `generate_backlinks` of the source. -/
def generate_backlinks (vault : List Doc) : Index :=
  vault.foldl (addDocRefs vault) []

/-! ### Section synthesis and rewriting

Source (`app.py`, `update_files_with_backlinks`), with
`backlink_section_pattern = r'## Backlinks\n\n.*?(?:\n\n|$)'` under
`re.DOTALL`:
* detection is `re.search` of the pattern — since `.*?` may always extend
  to the end of the content (where `$` matches), the pattern matches iff
  the literal `"## Backlinks\n\n"` occurs;
* a matched block runs from the heading through the first `"\n\n"` after
  it (inclusive), or to the position where `$` matches (end of content, or
  just before a content-final newline), whichever the non-greedy `.*?`
  reaches first;
* `re.sub` without a count replaces **every** such block, resuming the
  scan after each replacement.
-/

/-- The fixed heading marker of the pattern. -/
def marker : Chars := str "## Backlinks\n\n"

/-- Truthiness of `re.search(backlink_section_pattern, content, re.DOTALL)`. -/
def hasSection (content : Chars) : Bool := containsSub marker content

/-- Non-greedy completion of a block after the marker: split the tail into
the matched part (up to and including the first `"\n\n"`, or up to where
`$` matches) and the remainder. -/
def blockSplit : Chars → Chars × Chars
  | [] => ([], [])
  | [c] => if c = '\n' then ([], ['\n']) else ([c], [])
  | c1 :: c2 :: rest =>
    if c1 = '\n' ∧ c2 = '\n' then (['\n', '\n'], rest)
    else
      let p := blockSplit (c2 :: rest)
      (c1 :: p.1, p.2)

/-! #### The replacement template of `re.sub`

Python treats the replacement string of `re.sub` as a template
(`re._parser.parse_template` / `expand_template`), so the rendered section
is **not** spliced verbatim: after a backslash, the escapes of the
`ESCAPES` table (`\a \b \f \n \r \t \v \\`) are converted to single
characters, other ASCII-letter escapes raise `re.error` (bad escape),
other non-digit escapes keep the backslash and the character, `\0`
(with up to two more octal digits) is an octal escape, `\ddd` with three
octal digits is an octal escape (error above `0o377`), one- or two-digit
group references `\1`..`\99` raise `re.error` on this group-less pattern,
`\g<...>` resolves a group name — only the number 0 (the whole match)
exists here, every other name raises — and a trailing lone backslash
raises.  A raised `re.error` propagates out of
`update_files_with_backlinks` and aborts the run.

The functions below translate `parse_template` for this group-less
pattern, case by case.  One narrowing: where Python classifies a `\g<...>`
name via `str.isidentifier` and `int(...)` (both of which also accept
non-ASCII identifiers, Unicode digits and Unicode whitespace), the name
grammar here is the ASCII subset — ASCII whitespace around an optional
sign and ASCII digits with single underscores; titles exercising the
difference never reach any theorem below. -/

/-- A piece of a parsed replacement template: a literal character, or the
whole match (group 0). -/
inductive ReplPiece
  | lit (c : Char)
  | whole
deriving DecidableEq

/-- A parsed replacement template. -/
abbrev ReplT := List ReplPiece

def octDigit (c : Char) : Bool := '0' ≤ c && c ≤ '7'

def asciiDigit (c : Char) : Bool := '0' ≤ c && c ≤ '9'

def asciiLetter (c : Char) : Bool := ('a' ≤ c && c ≤ 'z') || ('A' ≤ c && c ≤ 'Z')

def digitVal (c : Char) : Nat := c.toNat - '0'.toNat

/-- ASCII whitespace accepted (as the narrowed grammar) around an
integer literal. -/
def isPySpace (c : Char) : Bool :=
  c = ' ' || c = '\t' || c = '\n' || c = '\r' || c = Char.ofNat 11 || c = Char.ofNat 12

def stripPySpace (l : Chars) : Chars :=
  ((l.dropWhile isPySpace).reverse.dropWhile isPySpace).reverse

/-- Digit run of an integer literal: digits with single interior
underscores (`int("1_0")` is 10, leading/trailing/double underscores
fail). -/
def intDigitsAux : Nat → Chars → Option Nat
  | acc, [] => some acc
  | acc, '_' :: rest =>
    match rest with
    | c :: r2 => if asciiDigit c then intDigitsAux (acc * 10 + digitVal c) r2 else none
    | [] => none
  | acc, c :: rest => if asciiDigit c then intDigitsAux (acc * 10 + digitVal c) rest else none

def intDigits : Chars → Option Nat
  | [] => none
  | c :: rest => if asciiDigit c then intDigitsAux (digitVal c) rest else none

/-- `int(name)` on a `\g<...>` group name (ASCII subset, see above):
stripped whitespace, optional sign, digit run. -/
def pyIntName (name : Chars) : Option Int :=
  match stripPySpace name with
  | '+' :: rest => (intDigits rest).map (fun n => (n : Int))
  | '-' :: rest => (intDigits rest).map (fun n => -(n : Int))
  | rest => (intDigits rest).map (fun n => (n : Int))

/-- `str.isidentifier` (ASCII subset): such a name is looked up among the
named groups, of which this pattern has none, so it always raises. -/
def asciiIdent : Chars → Bool
  | [] => false
  | c :: rest =>
    (asciiLetter c || c = '_')
      && rest.all (fun x => asciiLetter x || asciiDigit x || x = '_')

/-- `getuntil('>')`: the name before the closing `>` and the remainder,
or `none` when the `>` is missing. -/
def splitAtGt : Chars → Option (Chars × Chars)
  | [] => none
  | c :: rest =>
    if c = '>' then some ([], rest)
    else (splitAtGt rest).map (fun p => (c :: p.1, p.2))

/-- The `ESCAPES` table of `re._parser`. -/
def escChar : Char → Option Char
  | 'a' => some (Char.ofNat 7)
  | 'b' => some (Char.ofNat 8)
  | 'f' => some (Char.ofNat 12)
  | 'n' => some '\n'
  | 'r' => some '\r'
  | 't' => some '\t'
  | 'v' => some (Char.ofNat 11)
  | '\\' => some '\\'
  | _ => none

/-- `re._parser.parse_template` for the group-less block pattern:
`none` is a raised exception (`re.error` — or `IndexError` for an unknown
group name — both abort the run).  The fuel makes the recursion
structural; every step consumes at least one character, so the fuel used
by `parseTemplate` keeps the zero branch unreachable. -/
def parseTemplateF : Nat → Chars → Option ReplT
  | 0, _ => none
  | _ + 1, [] => some []
  | fuel + 1, c :: rest =>
    if c = '\\' then
      match rest with
      | [] => none
      | c2 :: r1 =>
        if c2 = 'g' then
          match r1 with
          | '<' :: r2 =>
            match splitAtGt r2 with
            | none => none
            | some (name, r3) =>
              if name = [] then none
              else if asciiIdent name then none
              else
                match pyIntName name with
                | some i =>
                  if i = 0 then (parseTemplateF fuel r3).map (ReplPiece.whole :: ·)
                  else none
                | none => none
          | _ => none
        else if c2 = '0' then
          match r1 with
          | d1 :: r2 =>
            if octDigit d1 then
              match r2 with
              | d2 :: r3 =>
                if octDigit d2 then
                  (parseTemplateF fuel r3).map
                    (ReplPiece.lit (Char.ofNat (digitVal d1 * 8 + digitVal d2)) :: ·)
                else
                  (parseTemplateF fuel r2).map (ReplPiece.lit (Char.ofNat (digitVal d1)) :: ·)
              | [] => (parseTemplateF fuel r2).map (ReplPiece.lit (Char.ofNat (digitVal d1)) :: ·)
            else (parseTemplateF fuel r1).map (ReplPiece.lit (Char.ofNat 0) :: ·)
          | [] => (parseTemplateF fuel r1).map (ReplPiece.lit (Char.ofNat 0) :: ·)
        else if asciiDigit c2 then
          match r1 with
          | d2 :: r2 =>
            if asciiDigit d2 then
              match r2 with
              | d3 :: r3 =>
                if octDigit c2 && octDigit d2 && octDigit d3 then
                  if digitVal c2 * 64 + digitVal d2 * 8 + digitVal d3 ≤ 255 then
                    (parseTemplateF fuel r3).map
                      (ReplPiece.lit
                        (Char.ofNat (digitVal c2 * 64 + digitVal d2 * 8 + digitVal d3)) :: ·)
                  else none
                else none
              | [] => none
            else none
          | [] => none
        else
          match escChar c2 with
          | some e => (parseTemplateF fuel r1).map (ReplPiece.lit e :: ·)
          | none =>
            if asciiLetter c2 then none
            else (parseTemplateF fuel r1).map
              (fun t => ReplPiece.lit '\\' :: ReplPiece.lit c2 :: t)
    else (parseTemplateF fuel rest).map (ReplPiece.lit c :: ·)

/-- Template parsing of a replacement string (`none` = raised error). -/
def parseTemplate (s : Chars) : Option ReplT := parseTemplateF (s.length + 1) s

/-- `expand_template` on one match: literals verbatim, group 0 as the
matched text. -/
def expandRepl (tmpl : ReplT) (matched : Chars) : Chars :=
  tmpl.foldr
    (fun p acc =>
      match p with
      | ReplPiece.lit c => c :: acc
      | ReplPiece.whole => matched ++ acc) []

/-- `re.sub(backlink_section_pattern, repl, content, flags=re.DOTALL)`
after successful template parsing: replace every matched block by the
expanded template (group 0 is that block), scanning left to right and
resuming after each replacement.  The fuel argument makes the recursion
structural; each step strictly shrinks the remaining characters, so the
fuel used by `subAllT` keeps the zero branch unreachable. -/
def subAllTF (tmpl : ReplT) : Nat → Chars → Chars
  | 0, l => l
  | _ + 1, [] => []
  | fuel + 1, c :: rest =>
    if leadsWith marker (c :: rest) then
      expandRepl tmpl (marker ++ (blockSplit ((c :: rest).drop marker.length)).1)
        ++ subAllTF tmpl fuel (blockSplit ((c :: rest).drop marker.length)).2
    else c :: subAllTF tmpl fuel rest

/-- Substitution of every matched block by the expanded template. -/
def subAllT (tmpl : ReplT) (content : Chars) : Chars :=
  subAllTF tmpl (content.length + 1) content

/-- Behaviour of the template machinery at representative replacement
strings, matching `re.sub` of the reference implementation case by case:
escape conversion, bad letter escapes, non-letter passthrough, group
references (invalid on this group-less pattern), octal escapes in and out
of range, `\g<...>` names, a trailing backslash, and whole-match
expansion. -/
theorem parseTemplate_cases :
    parseTemplate (str "A\\nB")
        = some [ReplPiece.lit 'A', ReplPiece.lit '\n', ReplPiece.lit 'B']
    ∧ parseTemplate (str "A\\\\B")
        = some [ReplPiece.lit 'A', ReplPiece.lit '\\', ReplPiece.lit 'B']
    ∧ parseTemplate (str "A\\qB") = none
    ∧ parseTemplate (str "A\\-B")
        = some [ReplPiece.lit 'A', ReplPiece.lit '\\', ReplPiece.lit '-', ReplPiece.lit 'B']
    ∧ parseTemplate (str "A\\1B") = none
    ∧ parseTemplate (str "A\\99B") = none
    ∧ parseTemplate (str "A\\123B")
        = some [ReplPiece.lit 'A', ReplPiece.lit 'S', ReplPiece.lit 'B']
    ∧ parseTemplate (str "A\\777B") = none
    ∧ parseTemplate (str "A\\190B") = none
    ∧ parseTemplate (str "A\\0B")
        = some [ReplPiece.lit 'A', ReplPiece.lit (Char.ofNat 0), ReplPiece.lit 'B']
    ∧ parseTemplate (str "A\\077B")
        = some [ReplPiece.lit 'A', ReplPiece.lit '?', ReplPiece.lit 'B']
    ∧ parseTemplate (str "A\\08B")
        = some [ReplPiece.lit 'A', ReplPiece.lit (Char.ofNat 0), ReplPiece.lit '8',
            ReplPiece.lit 'B']
    ∧ parseTemplate (str "A\\g") = none
    ∧ parseTemplate (str "A\\g<>B") = none
    ∧ parseTemplate (str "A\\g<0>B")
        = some [ReplPiece.lit 'A', ReplPiece.whole, ReplPiece.lit 'B']
    ∧ parseTemplate (str "A\\g<00>B")
        = some [ReplPiece.lit 'A', ReplPiece.whole, ReplPiece.lit 'B']
    ∧ parseTemplate (str "A\\g<1>B") = none
    ∧ parseTemplate (str "A\\g<a>B") = none
    ∧ parseTemplate (str "A\\g<0x>B") = none
    ∧ parseTemplate (str "A\\") = none
    ∧ subAllT [ReplPiece.lit 'A', ReplPiece.whole] (str "x\n\n## Backlinks\n\nOLD\n\ny")
        = str "x\n\nA## Backlinks\n\nOLD\n\ny" := by
  decide

/-- Specialization of `subAllTF` to a purely literal template — the action
of `re.sub` whenever the replacement carries no backslash (template
processing is then the identity).  Used by the proofs below. -/
def subAllF (sec : Chars) : Nat → Chars → Chars
  | 0, l => l
  | _ + 1, [] => []
  | fuel + 1, c :: rest =>
    if leadsWith marker (c :: rest) then
      sec ++ subAllF sec fuel (blockSplit ((c :: rest).drop marker.length)).2
    else c :: subAllF sec fuel rest

/-- Replacement of every matched block of the content by the literal
`sec` (the backslash-free case of `subAllT`). -/
def subAll (sec content : Chars) : Chars := subAllF sec (content.length + 1) content

/-- The rendered canonical section: heading, one `- [[title]]` line per
entry in order, and a final blank line. -/
def render_section (references : List Entry) : Chars :=
  marker ++ (references.foldl (fun acc e => acc ++ str "- [[" ++ e.1 ++ str "]]\n") []) ++ ['\n']

/-- End-of-content append with exactly the separation logic of the source:
nothing added after `"\n\n"`, one `'\n'` after a single `'\n'`, two
otherwise. -/
def appendSection (content sec : Chars) : Chars :=
  let c :=
    if trailsWith (str "\n\n") content then content
    else if trailsWith (str "\n") content then content ++ str "\n"
    else content ++ str "\n\n"
  c ++ sec

/-- The two update policies of the command surface. -/
inductive Mode
  | append
  | replace
deriving DecidableEq

/-- Outcome of the per-target loop body of `update_files_with_backlinks`
on one target: the document is skipped (`continue`, no write), its file is
written with new content, or the `re.sub` call raises (`err`) — the
exception propagates and the file is not written. -/
inductive WriteOutcome
  | skip
  | write (c : Chars)
  | err
deriving DecidableEq

/-- Body of the per-target loop of `update_files_with_backlinks`.  In the
replace branch the rendered section passes through `re.sub`'s replacement
template processing; a template error (possible only when a source title
carries a backslash) is the raised-exception outcome. -/
def updateContent (references : List Entry) (mode : Mode) (content : Chars) : WriteOutcome :=
  if references.isEmpty then WriteOutcome.skip
  else
    let existing := hasSection content
    let sec := render_section references
    if existing ∧ mode = Mode.replace then
      match parseTemplate sec with
      | some tmpl => WriteOutcome.write (subAllT tmpl content)
      | none => WriteOutcome.err
    else if existing ∧ mode = Mode.append then WriteOutcome.skip
    else WriteOutcome.write (appendSection content sec)

/-- A backslash-bearing source title reaches the raised-error outcome of
the replace branch: the rendered section `- [[a\qb]]` is a bad escape as
a replacement template, `re.sub` raises, and the file is not written. -/
theorem updateContent_template_error :
    updateContent [(str "a\\qb", str "p")] Mode.replace (str "## Backlinks\n\nOLD\n\n")
      = WriteOutcome.err := by
  decide

/-- Effect of one run's write pass on one document.  (Python iterates the
index dictionary and writes each target file once; since every index key
is the path of a scanned document and `os.walk` yields each path once,
this per-document view computes the same contents.  A raised `re.error`
leaves the document itself unwritten — as here — and additionally aborts
the loop before later targets, a cross-target effect of an outcome no
theorem below touches.) -/
def updateDoc (idx : Index) (mode : Mode) (d : Doc) : Doc :=
  match updateContent (lookupIdx idx d.path) mode d.content with
  | WriteOutcome.write c => ⟨d.path, c⟩
  | _ => d

/-- Whether the run writes the document's file at all. -/
def docWritten (idx : Index) (mode : Mode) (d : Doc) : Bool :=
  match updateContent (lookupIdx idx d.path) mode d.content with
  | WriteOutcome.write _ => true
  | _ => false

/-- `update_files_with_backlinks` of the source, as the resulting vault. -/
def update_files_with_backlinks (idx : Index) (mode : Mode) (vault : List Doc) : List Doc :=
  vault.map (updateDoc idx mode)

/-- One full run of the pipeline (`main` after discovery): build the index
from the current contents, then rewrite the documents. -/
def runPipeline (mode : Mode) (vault : List Doc) : List Doc :=
  update_files_with_backlinks (generate_backlinks vault) mode vault

/-! ### General lemmas -/

theorem runPipeline_length (mode : Mode) (vault : List Doc) :
    (runPipeline mode vault).length = vault.length := by
  simp [runPipeline, update_files_with_backlinks]

theorem updateContent_append_skip (references : List Entry) (content : Chars)
    (h : hasSection content = true) :
    updateContent references Mode.append content = WriteOutcome.skip := by
  unfold updateContent
  by_cases he : references.isEmpty
  · simp [he]
  · simp [he, h]

theorem updateContent_nil (mode : Mode) (content : Chars) :
    updateContent [] mode content = WriteOutcome.skip := by
  simp [updateContent]

/-! ### C9 — the literal-text strategy never reports titles shorter than 3 -/

/-- C9: for every title of length strictly less than 3 characters, the
literal-text strategy never reports a reference to it, whatever the
content. -/
theorem short_title_never_reported (content : Chars) (titles : List Chars)
    (t : Chars) (h : t.length < 3) : t ∉ find_text_references content titles := by
  intro hmem
  simp only [find_text_references, List.mem_filter, Bool.and_eq_true,
    decide_eq_true_eq] at hmem
  omega

/-- Witness for C9 at a concrete input: the two-character title `Fo`
appears verbatim but is not reported. -/
theorem short_title_never_reported_witness :
    (str "Fo").length < 3 ∧ str "Fo" ∉ find_text_references (str "Fo is here") [str "Fo"] :=
  ⟨by decide, short_title_never_reported (str "Fo is here") [str "Fo"] (str "Fo") (by decide)⟩

/-! ### C7 — append mode is a no-op on documents with an existing section -/

/-- C7: in append mode, a document whose content already contains the
canonical section marker is left byte-identical by the run and its file is
not written at all. -/
theorem append_existing_section_untouched (vault : List Doc) (i : Nat)
    (hi : i < vault.length)
    (hs : hasSection (vault.get ⟨i, hi⟩).content = true) :
    (runPipeline Mode.append vault).get ⟨i, by rw [runPipeline_length]; exact hi⟩
        = vault.get ⟨i, hi⟩
    ∧ docWritten (generate_backlinks vault) Mode.append (vault.get ⟨i, hi⟩) = false := by
  simp only [List.get_eq_getElem] at hs
  constructor
  · show (update_files_with_backlinks _ _ _).get _ = _
    simp only [update_files_with_backlinks, List.get_eq_getElem, List.getElem_map]
    simp [updateDoc, updateContent_append_skip _ _ hs]
  · simp only [List.get_eq_getElem]
    simp [docWritten, updateContent_append_skip _ _ hs]

/-- Witness for C7 at a concrete vault: `T.md` already carries a section
and is untouched by an append run even though `A.md` references it. -/
theorem append_existing_section_untouched_witness :
    hasSection (([⟨str "A.md", str "[[T]]"⟩,
        ⟨str "T.md", str "x\n\n## Backlinks\n\n- [[old]]\n\n"⟩] : List Doc).get
          ⟨1, by decide⟩).content = true
    ∧ (runPipeline Mode.append [⟨str "A.md", str "[[T]]"⟩,
          ⟨str "T.md", str "x\n\n## Backlinks\n\n- [[old]]\n\n"⟩]).get ⟨1, by decide⟩
        = ([⟨str "A.md", str "[[T]]"⟩,
            ⟨str "T.md", str "x\n\n## Backlinks\n\n- [[old]]\n\n"⟩] : List Doc).get ⟨1, by decide⟩
    ∧ docWritten (generate_backlinks [⟨str "A.md", str "[[T]]"⟩,
          ⟨str "T.md", str "x\n\n## Backlinks\n\n- [[old]]\n\n"⟩]) Mode.append
        (([⟨str "A.md", str "[[T]]"⟩,
            ⟨str "T.md", str "x\n\n## Backlinks\n\n- [[old]]\n\n"⟩] : List Doc).get
          ⟨1, by decide⟩) = false := by
  refine ⟨by decide, ?_⟩
  have h := append_existing_section_untouched
    [⟨str "A.md", str "[[T]]"⟩, ⟨str "T.md", str "x\n\n## Backlinks\n\n- [[old]]\n\n"⟩]
    1 (by decide) (by decide)
  exact ⟨h.1, h.2⟩

/-! ### C8 — documents with zero inbound references are never written -/

/-- C8: a document whose path has no entries in the backlink index is left
byte-identical by the run in either mode, and its file is not written. -/
theorem zero_inbound_never_written (vault : List Doc) (mode : Mode) (i : Nat)
    (hi : i < vault.length)
    (hz : lookupIdx (generate_backlinks vault) (vault.get ⟨i, hi⟩).path = []) :
    (runPipeline mode vault).get ⟨i, by rw [runPipeline_length]; exact hi⟩
        = vault.get ⟨i, hi⟩
    ∧ docWritten (generate_backlinks vault) mode (vault.get ⟨i, hi⟩) = false := by
  simp only [List.get_eq_getElem] at hz
  constructor
  · show (update_files_with_backlinks _ _ _).get _ = _
    simp only [update_files_with_backlinks, List.get_eq_getElem, List.getElem_map]
    simp [updateDoc, hz, updateContent_nil]
  · simp only [List.get_eq_getElem]
    simp [docWritten, hz, updateContent_nil]

/-- Witness for C8 at a concrete vault: nothing references `A.md`, so a
replace-mode run leaves it untouched and unwritten. -/
theorem zero_inbound_never_written_witness :
    lookupIdx (generate_backlinks [⟨str "A.md", str "[[T]]"⟩, ⟨str "T.md", str "hi"⟩])
        (([⟨str "A.md", str "[[T]]"⟩, ⟨str "T.md", str "hi"⟩] : List Doc).get
          ⟨0, by decide⟩).path = []
    ∧ (runPipeline Mode.replace [⟨str "A.md", str "[[T]]"⟩, ⟨str "T.md", str "hi"⟩]).get
          ⟨0, by decide⟩
        = ([⟨str "A.md", str "[[T]]"⟩, ⟨str "T.md", str "hi"⟩] : List Doc).get ⟨0, by decide⟩
    ∧ docWritten (generate_backlinks [⟨str "A.md", str "[[T]]"⟩, ⟨str "T.md", str "hi"⟩])
        Mode.replace
        (([⟨str "A.md", str "[[T]]"⟩, ⟨str "T.md", str "hi"⟩] : List Doc).get
          ⟨0, by decide⟩) = false := by
  refine ⟨by decide, ?_⟩
  have h := zero_inbound_never_written
    [⟨str "A.md", str "[[T]]"⟩, ⟨str "T.md", str "hi"⟩] Mode.replace 0 (by decide) (by decide)
  exact ⟨h.1, h.2⟩

/-! ### C10 — unresolvable reference titles are silently ignored -/

theorem titleLookup_eq_some {vault : List Doc} {r p : Chars}
    (h : titleLookup vault r = some p) :
    ∃ d ∈ vault, d.path = p ∧ extract_note_title d.path = r := by
  unfold titleLookup at h
  cases hl : (vault.filter (fun d => extract_note_title d.path == r)).getLast? with
  | none => rw [hl] at h; simp at h
  | some d0 =>
    rw [hl] at h
    simp only [Option.map_some', Option.some.injEq] at h
    obtain ⟨hne, heq⟩ := List.mem_getLast?_eq_getLast (Option.mem_def.mpr hl)
    have hmem : d0 ∈ vault.filter (fun d => extract_note_title d.path == r) := by
      rw [heq]
      exact List.getLast_mem hne
    rw [List.mem_filter] at hmem
    exact ⟨d0, hmem.1, h, by simpa using hmem.2⟩

theorem mem_keys_appendEntry {idx : Index} {tgt t : Chars} {e : Entry}
    (h : t ∈ (appendEntry idx tgt e).map Prod.fst) :
    t ∈ idx.map Prod.fst ∨ t = tgt := by
  induction idx with
  | nil =>
    simp only [appendEntry, List.map_cons, List.map_nil, List.mem_cons,
      List.not_mem_nil, or_false] at h
    exact Or.inr h
  | cons kv rest ih =>
    obtain ⟨k, v⟩ := kv
    simp only [appendEntry] at h
    split at h
    · left
      simpa using h
    · simp only [List.map_cons, List.mem_cons] at h ⊢
      rcases h with h | h
      · exact Or.inl (Or.inl h)
      · rcases ih h with h' | h'
        · exact Or.inl (Or.inr h')
        · exact Or.inr h'

theorem mem_keys_foldl {α : Type} (f : Index → α → Index) (P : Chars → Prop)
    (hf : ∀ idx a t, t ∈ (f idx a).map Prod.fst → t ∈ idx.map Prod.fst ∨ P t) :
    ∀ (l : List α) (idx : Index) (t : Chars),
      t ∈ (l.foldl f idx).map Prod.fst → t ∈ idx.map Prod.fst ∨ P t := by
  intro l
  induction l with
  | nil => intro idx t h; exact Or.inl h
  | cons a l ih =>
    intro idx t h
    rcases ih (f idx a) t h with h' | h'
    · exact hf idx a t h'
    · exact Or.inr h'

/-- C10: every key of the backlink index is the path of a scanned
document; an extracted reference title matching no document contributes no
entry (and the index construction is a total function — no error). -/
theorem unresolved_titles_ignored (vault : List Doc) (t : Chars)
    (h : t ∈ (generate_backlinks vault).map Prod.fst) :
    ∃ d ∈ vault, d.path = t := by
  have step : ∀ idx (d : Doc) (t : Chars),
      t ∈ (addDocRefs vault idx d).map Prod.fst →
        t ∈ idx.map Prod.fst ∨ ∃ e ∈ vault, e.path = t := by
    intro idx d t ht
    refine mem_keys_foldl (refStep vault (extract_note_title d.path, d.path))
      (fun t => ∃ e ∈ vault, e.path = t) ?_ (docRefs vault d) idx t ht
    intro idx' r t' ht'
    unfold refStep at ht'
    cases hl : titleLookup vault r with
    | none => rw [hl] at ht'; exact Or.inl ht'
    | some p =>
      rw [hl] at ht'
      rcases mem_keys_appendEntry ht' with h' | h'
      · exact Or.inl h'
      · obtain ⟨d0, hd0, hp, _⟩ := titleLookup_eq_some hl
        exact Or.inr ⟨d0, hd0, by rw [hp, h']⟩
  have := mem_keys_foldl (addDocRefs vault) (fun t => ∃ e ∈ vault, e.path = t)
    step vault [] t h
  simpa using this

/-- Witness for C10 at a concrete vault: the only index key is the path of
a scanned document (while the dangling references `[[missing]]` of `A.md`
produce no key). -/
theorem unresolved_titles_ignored_witness :
    (str "T.md" ∈ (generate_backlinks
        [⟨str "A.md", str "[[missing]] and [[T]]"⟩, ⟨str "T.md", str "hi"⟩]).map Prod.fst)
    ∧ ∃ d ∈ ([⟨str "A.md", str "[[missing]] and [[T]]"⟩,
          ⟨str "T.md", str "hi"⟩] : List Doc), d.path = str "T.md" :=
  ⟨by decide, unresolved_titles_ignored
    [⟨str "A.md", str "[[missing]] and [[T]]"⟩, ⟨str "T.md", str "hi"⟩]
    (str "T.md") (by decide)⟩

/-! ### C1 — the literal-text strategy runs unconditionally

`main` defines `--text-refs` (`store_true`, default off, help text
"Include plain text references as backlinks") but never reads
`args.text_refs`; `generate_backlinks` takes no flag and always calls
`find_text_references`.  The embedding mirrors the source:
`generate_backlinks` has no flag parameter.  The theorem below evaluates
the (unique, flagless) pipeline on a vault whose only cross-reference is a
plain-text mention and shows that it is recorded — so the reference-title
sets of a no-flag run are not produced by the explicit-link strategy
alone. -/

/-- C1 (failing input): with no flag anywhere, a vault in which `Bar.md`
merely mentions `Foo` as plain text still yields a backlink entry for
`Foo.md`; strategy 2 ran although the caller never opted in. -/
theorem text_refs_extracted_without_flag :
    generate_backlinks [⟨str "Foo.md", str "x"⟩, ⟨str "Bar.md", str "Foo is great"⟩]
      = [(str "Foo.md", [(str "Bar", str "Bar.md")])]
    ∧ parse_links (str "Foo is great") = [] := by
  exact ⟨by decide, by decide⟩

/-! ### C2 — replace mode rewrites every matching block, not only the first -/

/-- Concrete vault for C2: the target document already carries two
canonical-looking blocks. -/
def vaultTwoBlocks : List Doc :=
  [⟨str "A.md", str "[[T]]"⟩,
   ⟨str "T.md", str "## Backlinks\n\n- [[X]]\n\nmid\n\n## Backlinks\n\n- [[Y]]\n\ntail"⟩]

/-- C2 (counterexample): in replace mode the rewriter replaces **both**
matching blocks of `T.md` — the later block `- [[Y]]` does not survive,
contradicting the claim that only the first matching block is replaced. -/
theorem replace_rewrites_later_block_too :
    (runPipeline Mode.replace vaultTwoBlocks).map Doc.content
      = [str "[[T]]",
         str "## Backlinks\n\n- [[A]]\n\nmid\n\n## Backlinks\n\n- [[A]]\n\ntail"]
    ∧ containsSub (str "- [[Y]]")
        (((runPipeline Mode.replace vaultTwoBlocks).map Doc.content).getD 1 []) = false := by
  exact ⟨by decide, by decide⟩

/-! ### C3 — replace-mode runs need not converge

The block pattern `## Backlinks\n\n.*?(?:\n\n|$)` stops at the **first**
blank line after the heading.  A source title containing a blank line
(filename `"B\n\nQ.md"`, legal on POSIX) is rendered into the section as
`- [[B\n\nQ]]`, so the next run's match ends inside the entry and the
substitution re-inserts the whole section before the leftover `Q]]\n\n`,
growing the content on every run. -/

/-- Concrete vault for C3: the source document's filename contains a blank
line; its explicit link gives `Target.md` one inbound reference. -/
def vaultNoConverge : List Doc :=
  [⟨str "B\n\nQ.md", str "see [[Target]]"⟩, ⟨str "Target.md", str "hello"⟩]

/-- C3 (failing input): the second and third replace-mode runs do not
agree — a `Q]]\n\n` residue is appended by every further run, so the
pipeline never converges on this vault. -/
theorem replace_mode_diverges_on_newline_title :
    (runPipeline Mode.replace (runPipeline Mode.replace vaultNoConverge)).map Doc.content
      = [str "see [[Target]]",
         str "hello\n\n## Backlinks\n\n- [[B\n\nQ]]\n\nQ]]\n\n"]
    ∧ (runPipeline Mode.replace (runPipeline Mode.replace
          (runPipeline Mode.replace vaultNoConverge))).map Doc.content
      = [str "see [[Target]]",
         str "hello\n\n## Backlinks\n\n- [[B\n\nQ]]\n\nQ]]\n\nQ]]\n\n"]
    ∧ (runPipeline Mode.replace (runPipeline Mode.replace vaultNoConverge)).map Doc.content
      ≠ (runPipeline Mode.replace (runPipeline Mode.replace
          (runPipeline Mode.replace vaultNoConverge))).map Doc.content := by
  exact ⟨by decide, by decide, by decide⟩

/-! ### C4 — deduplication is per source document, not per source title -/

/-- Concrete vault for C4: two distinct documents share the source title
`X`; both link `T.md` explicitly. -/
def vaultCollision : List Doc :=
  [⟨str "a/X.md", str "[[T]]"⟩, ⟨str "b/X.md", str "[[T]]"⟩, ⟨str "T.md", str "hi"⟩]

/-- C4 (counterexample): `a/X.md` contains `[[T]]` — the claim's premise —
yet the reference list recorded for `T.md` carries the entry title `X`
twice (once per source file), so the rendered section links `Title(D1)`
twice, not exactly once. -/
theorem shared_source_title_double_entry :
    containsSub (str "[[T]]") (str "[[T]]") = true
    ∧ lookupIdx (generate_backlinks vaultCollision) (str "T.md")
        = [(str "X", str "a/X.md"), (str "X", str "b/X.md")]
    ∧ List.countP (fun e => e.1 == str "X")
        (lookupIdx (generate_backlinks vaultCollision) (str "T.md")) = 2 := by
  exact ⟨by decide, by decide, by decide⟩

/-! ### C5 — the spec's concrete scenario: title `B` is too short for the
literal-text strategy -/

/-- The spec's concrete scenario vault. -/
def vaultScenario : List Doc :=
  [⟨str "A.md", str "see [[B]] and [[B]] again"⟩,
   ⟨str "B.md", str "nothing here"⟩,
   ⟨str "C.md", str "B is interesting"⟩]

/-- C5 (counterexample): after a run with literal-text matching active
(the source always runs strategy 2), `B.md`'s section does **not** contain
`- [[C]]`: the title `B` has length 1, below the strategy's minimum of 3,
so `C.md`'s plain mention is never matched. -/
theorem scenario_literal_B_not_reported :
    containsSub (str "- [[C]]")
        (((runPipeline Mode.append vaultScenario).map Doc.content).getD 1 []) = false
    ∧ find_text_references (str "B is interesting")
        [str "A", str "B", str "C"] = [] := by
  exact ⟨by decide, by decide⟩

/-- C5 (amended): the full contents after one append run on the scenario
vault — `B.md` gains exactly one section with the single entry `- [[A]]`,
and the other documents are untouched. -/
theorem scenario_final_contents :
    (runPipeline Mode.append vaultScenario).map Doc.content
      = [str "see [[B]] and [[B]] again",
         str "nothing here\n\n## Backlinks\n\n- [[A]]\n\n",
         str "B is interesting"] := by
  decide

/-! ### C6 — the lookaround tests adjacency, not enclosure -/

/-- Modelled from the spec: a position `i` of the content is "already
enclosed by the explicit-link brackets" when the span of some wiki-link
match covers the whole occurrence of the title starting at `i`. -/
def enclosedInLink (content t : Chars) (i : Nat) : Bool :=
  (wikiScan content).any (fun sp => decide (sp.1 ≤ i) && decide (i + t.length ≤ sp.2.1))

/-- Every position of the content carrying an occurrence of `t` is
enclosed by explicit-link brackets.  The range bound is exhaustive for
nonempty `t` (see `allOccurrencesEnclosed_sound`). -/
def allOccurrencesEnclosed (content t : Chars) : Bool :=
  (List.range (content.length + 1)).all
    (fun i => !(leadsWith t (content.drop i)) || enclosedInLink content t i)

theorem allOccurrencesEnclosed_sound {content t : Chars} (ht : t ≠ [])
    (h : allOccurrencesEnclosed content t = true) :
    ∀ i : Nat, leadsWith t (content.drop i) = true → enclosedInLink content t i = true := by
  intro i hocc
  by_cases hb : i < content.length + 1
  · have := (List.all_eq_true.mp h) i (List.mem_range.mpr hb)
    simpa [hocc] using this
  · exfalso
    have hnil : content.drop i = [] := List.drop_eq_nil_of_le (by omega)
    rw [hnil] at hocc
    cases t with
    | nil => exact ht rfl
    | cons a l => simp [leadsWith] at hocc

/-- C6 (counterexample): in `[[xFooy]]`, the only occurrence of the known
title `Foo` lies strictly inside the explicit link `[[xFooy]]` — it is
enclosed by the brackets — yet the literal-text strategy reports `Foo`,
because the lookarounds only test the two adjacent characters. -/
theorem enclosed_occurrence_still_reported :
    find_text_references (str "[[xFooy]]") [str "Foo"] = [str "Foo"]
    ∧ allOccurrencesEnclosed (str "[[xFooy]]") (str "Foo") = true := by
  exact ⟨by decide, by decide⟩

/-- C6 (amended): the literal-text strategy reports a known title (of
length at least 3) for a document **iff** that exact title string occurs at
some position whose two preceding characters are not `[[` and whose two
following characters (after the occurrence) are not `]]` — an adjacency
test, not an enclosure test. -/
theorem find_text_references_mem_iff (content : Chars) (titles : List Chars) (t : Chars) :
    t ∈ find_text_references content titles ↔
      t ∈ titles ∧ 3 ≤ t.length ∧
        ∃ i : Nat, leadsWith t (content.drop i) = true
          ∧ ¬(2 ≤ i ∧ leadsWith (str "[[") (content.drop (i - 2)) = true)
          ∧ leadsWith (str "]]") (content.drop (i + t.length)) = false := by
  simp only [find_text_references, List.mem_filter, Bool.and_eq_true, decide_eq_true_eq,
    reSearchText, List.any_eq_true, List.mem_range]
  constructor
  · rintro ⟨h1, h2, i, hi, hp⟩
    simp only [posHit, Bool.and_eq_true, Bool.not_eq_true', Bool.and_eq_false_iff,
      decide_eq_false_iff_not] at hp
    obtain ⟨⟨hA, hBC⟩, hD⟩ := hp
    refine ⟨h1, h2, i, hA, ?_, hD⟩
    rintro ⟨hge, hlead⟩
    rcases hBC with h | h
    · exact h hge
    · rw [h] at hlead
      exact Bool.false_ne_true hlead
  · rintro ⟨h1, h2, i, hA, hBC, hD⟩
    refine ⟨h1, h2, i, ?_, ?_⟩
    · by_contra hge
      push_neg at hge
      have hnil : content.drop i = [] := List.drop_eq_nil_of_le (by omega)
      rw [hnil] at hA
      cases t with
      | nil => simp at h2
      | cons a l => simp [leadsWith] at hA
    · simp only [posHit, Bool.and_eq_true, Bool.not_eq_true', Bool.and_eq_false_iff,
        decide_eq_false_iff_not]
      refine ⟨⟨hA, ?_⟩, hD⟩
      by_cases hge : 2 ≤ i
      · right
        cases hlw : leadsWith (str "[[") (content.drop (i - 2)) with
        | false => rfl
        | true => exact absurd ⟨hge, hlw⟩ hBC
      · exact Or.inl hge

/-- Witness for the amended C6 at concrete values: the characterization
instantiated on `[[xFooy]]` and the title `Foo`. -/
theorem find_text_references_mem_iff_witness :
    str "Foo" ∈ find_text_references (str "[[xFooy]]") [str "Foo"] ↔
      str "Foo" ∈ [str "Foo"] ∧ 3 ≤ (str "Foo").length ∧
        ∃ i : Nat, leadsWith (str "Foo") ((str "[[xFooy]]").drop i) = true
          ∧ ¬(2 ≤ i ∧ leadsWith (str "[[") ((str "[[xFooy]]").drop (i - 2)) = true)
          ∧ leadsWith (str "]]") ((str "[[xFooy]]").drop (i + (str "Foo").length)) = false :=
  find_text_references_mem_iff (str "[[xFooy]]") [str "Foo"] (str "Foo")

/-! ### C2 (amended) — lemmas about the block substitution -/

theorem marker_eq : marker = '#' :: str "# Backlinks\n\n" := rfl

theorem containsSub_of_leadsWith {pat l : Chars} (h : leadsWith pat l = true) :
    containsSub pat l = true := by
  cases l with
  | nil =>
    cases pat with
    | nil => rfl
    | cons p ps => simp [leadsWith] at h
  | cons c rest => simp [containsSub, h]

theorem blockSplit_snd_length : ∀ (l : Chars), (blockSplit l).2.length ≤ l.length := by
  intro l
  induction l with
  | nil => simp [blockSplit]
  | cons c1 tail ih =>
    cases tail with
    | nil =>
      by_cases h : c1 = '\n' <;> simp [blockSplit, h]
    | cons c2 rest =>
      simp only [blockSplit]
      split
      · simp only [List.length_cons]
        omega
      · simp only [List.length_cons] at ih ⊢
        omega

theorem blockSplit_no_newline (body : Chars) (rest : Chars)
    (h : ∀ c ∈ body, c ≠ '\n') :
    blockSplit (body ++ '\n' :: '\n' :: rest) = (body ++ ['\n', '\n'], rest) := by
  induction body with
  | nil => simp [blockSplit]
  | cons c body ih =>
    have hc : c ≠ '\n' := h c (List.mem_cons_self c body)
    have hIH := ih (fun x hx => h x (List.mem_cons_of_mem c hx))
    cases body with
    | nil =>
      simp only [List.nil_append] at hIH
      simp [blockSplit, hc, hIH]
    | cons b bs =>
      simp only [List.cons_append] at hIH ⊢
      simp [blockSplit, hc, hIH]

theorem subAllF_fuel (sec : Chars) : ∀ (f1 : Nat) (l : Chars) (f2 : Nat),
    l.length < f1 → l.length < f2 → subAllF sec f1 l = subAllF sec f2 l := by
  intro f1
  induction f1 with
  | zero => intro l f2 h1 _; omega
  | succ f1 ih =>
    intro l f2 h1 h2
    cases l with
    | nil =>
      cases f2 with
      | zero => omega
      | succ f2 => rfl
    | cons c rest =>
      cases f2 with
      | zero => omega
      | succ f2 =>
        simp only [subAllF]
        split_ifs with hm
        · have hlen : marker.length ≤ (c :: rest).length := leadsWith_length hm
          have hml : marker.length = 14 := rfl
          have hbs := blockSplit_snd_length ((c :: rest).drop marker.length)
          rw [List.length_drop] at hbs
          simp only [List.length_cons] at h1 h2 hlen hbs
          congr 1
          exact ih _ f2 (by omega) (by omega)
        · simp only [List.length_cons] at h1 h2
          congr 1
          exact ih rest f2 (by omega) (by omega)

theorem subAll_nil (sec : Chars) : subAll sec [] = [] := rfl

theorem subAll_cons_pass (sec : Chars) (c : Char) (rest : Chars) (hc : c ≠ '#') :
    subAll sec (c :: rest) = c :: subAll sec rest := by
  have hm : leadsWith marker (c :: rest) = false := by
    rw [marker_eq]
    simp only [leadsWith, Bool.and_eq_false_iff]
    exact Or.inl (beq_eq_false_iff_ne.mpr (Ne.symm hc))
  show subAllF sec ((c :: rest).length + 1) (c :: rest) = _
  simp only [List.length_cons]
  show subAllF sec ((rest.length + 1) + 1) (c :: rest) = _
  simp only [subAllF, hm]
  rfl

theorem subAll_pass (sec l r : Chars) (h : ∀ c ∈ l, c ≠ '#') :
    subAll sec (l ++ r) = l ++ subAll sec r := by
  induction l with
  | nil => simp
  | cons c l ih =>
    rw [List.cons_append,
      subAll_cons_pass sec c (l ++ r) (h c (List.mem_cons_self c l)),
      ih (fun x hx => h x (List.mem_cons_of_mem c hx)), List.cons_append]

theorem subAll_id (sec l : Chars) (h : ∀ c ∈ l, c ≠ '#') : subAll sec l = l := by
  have := subAll_pass sec l [] h
  simpa [subAll_nil] using this

theorem subAll_marker (sec t : Chars) :
    subAll sec (marker ++ t) = sec ++ subAll sec (blockSplit t).2 := by
  have hlead : leadsWith marker (marker ++ t) = true := leadsWith_append marker t
  have hshape : marker ++ t = '#' :: (str "# Backlinks\n\n" ++ t) := rfl
  have hdrop : (marker ++ t).drop marker.length = t := List.drop_left marker t
  show subAllF sec ((marker ++ t).length + 1) (marker ++ t) = _
  have hlen : (marker ++ t).length + 1 = ((str "# Backlinks\n\n" ++ t).length + 1) + 1 := by
    rw [hshape]
    simp
  rw [hlen, hshape]
  simp only [subAllF]
  rw [← hshape, hdrop]
  simp only [hlead, if_true]
  congr 1
  refine subAllF_fuel sec _ _ _ ?_ ?_
  · have := blockSplit_snd_length t
    have : (blockSplit t).2.length ≤ t.length := this
    simp only [List.length_append]
    omega
  · omega

theorem entry_chars_no_newline (t : Chars) (h : ∀ c ∈ t, c ≠ '\n') :
    ∀ c ∈ str "- [[" ++ t ++ str "]]", c ≠ '\n' := by
  intro c hc
  rcases List.mem_append.mp hc with h1 | h1
  · rcases List.mem_append.mp h1 with h2 | h2
    · have hm : c ∈ ['-', ' ', '[', '['] := h2
      simp only [List.mem_cons, List.not_mem_nil, or_false] at hm
      rcases hm with rfl | rfl | rfl | rfl <;> decide
    · exact h c h2
  · have hm : c ∈ [']', ']'] := h1
    simp only [List.mem_cons, List.not_mem_nil, or_false] at hm
    rcases hm with rfl | rfl <;> decide

theorem parseTemplate_no_backslash (s : Chars) (h : ∀ c ∈ s, c ≠ '\\') :
    parseTemplate s = some (s.map ReplPiece.lit) := by
  unfold parseTemplate
  induction s with
  | nil => rfl
  | cons c rest ih =>
    have hc : c ≠ '\\' := h c (List.mem_cons_self c rest)
    have hr := ih (fun x hx => h x (List.mem_cons_of_mem c hx))
    show parseTemplateF ((c :: rest).length + 1) (c :: rest) = _
    simp only [List.length_cons]
    show parseTemplateF ((rest.length + 1) + 1) (c :: rest) = _
    simp only [parseTemplateF]
    rw [if_neg hc, hr]
    rfl

theorem expandRepl_lit (s m : Chars) : expandRepl (s.map ReplPiece.lit) m = s := by
  induction s with
  | nil => rfl
  | cons c rest ih =>
    simp only [List.map_cons, expandRepl, List.foldr_cons] at ih ⊢
    rw [ih]

theorem subAllTF_lit (sec : Chars) : ∀ (fuel : Nat) (l : Chars),
    subAllTF (sec.map ReplPiece.lit) fuel l = subAllF sec fuel l := by
  intro fuel
  induction fuel with
  | zero => intro l; rfl
  | succ fuel ih =>
    intro l
    cases l with
    | nil => rfl
    | cons c rest =>
      simp only [subAllTF, subAllF]
      split_ifs with hm
      · rw [expandRepl_lit, ih]
      · rw [ih]

theorem subAllT_lit (sec content : Chars) :
    subAllT (sec.map ReplPiece.lit) content = subAll sec content :=
  subAllTF_lit sec (content.length + 1) content

theorem render_entries_chars : ∀ (refs : List Entry) (acc : Chars) (c : Char),
    c ∈ refs.foldl (fun a e => a ++ str "- [[" ++ e.1 ++ str "]]\n") acc →
    c ∈ acc ∨ c = '-' ∨ c = ' ' ∨ c = '[' ∨ c = ']' ∨ c = '\n'
      ∨ ∃ e ∈ refs, c ∈ e.1 := by
  intro refs
  induction refs with
  | nil =>
    intro acc c h
    exact Or.inl h
  | cons e refs ih =>
    intro acc c h
    simp only [List.foldl_cons] at h
    rcases ih _ c h with h' | h' | h' | h' | h' | h' | h'
    · rcases List.mem_append.mp h' with h2 | h2
      · rcases List.mem_append.mp h2 with h3 | h3
        · rcases List.mem_append.mp h3 with h4 | h4
          · exact Or.inl h4
          · have hg : c ∈ ['-', ' ', '[', '['] := h4
            simp only [List.mem_cons, List.not_mem_nil, or_false] at hg
            tauto
        · exact Or.inr (Or.inr (Or.inr (Or.inr (Or.inr (Or.inr
            ⟨e, List.mem_cons_self e refs, h3⟩)))))
      · have hg : c ∈ [']', ']', '\n'] := h2
        simp only [List.mem_cons, List.not_mem_nil, or_false] at hg
        tauto
    · tauto
    · tauto
    · tauto
    · tauto
    · tauto
    · obtain ⟨e', he', hc'⟩ := h'
      exact Or.inr (Or.inr (Or.inr (Or.inr (Or.inr (Or.inr
        ⟨e', List.mem_cons_of_mem e he', hc'⟩)))))

theorem render_section_no_backslash (refs : List Entry)
    (h : ∀ e ∈ refs, ∀ c ∈ e.1, c ≠ '\\') :
    ∀ c ∈ render_section refs, c ≠ '\\' := by
  intro c hc
  unfold render_section at hc
  rcases List.mem_append.mp hc with h1 | h1
  · rcases List.mem_append.mp h1 with h2 | h2
    · have heq : marker
          = ['#', '#', ' ', 'B', 'a', 'c', 'k', 'l', 'i', 'n', 'k', 's', '\n', '\n'] := rfl
      rw [heq] at h2
      simp only [List.mem_cons, List.not_mem_nil, or_false] at h2
      rcases h2 with rfl|rfl|rfl|rfl|rfl|rfl|rfl|rfl|rfl|rfl|rfl|rfl|rfl|rfl <;> decide
    · rcases render_entries_chars refs [] c h2 with h3 | h3 | h3 | h3 | h3 | h3 | h3
      · simp at h3
      · subst h3; decide
      · subst h3; decide
      · subst h3; decide
      · subst h3; decide
      · subst h3; decide
      · obtain ⟨e, he, hc'⟩ := h3
        exact h e he c hc'
  · have hg : c ∈ ['\n'] := h1
    simp only [List.mem_cons, List.not_mem_nil, or_false] at hg
    subst hg
    decide

/-- C2 (amended): in replace mode, when the content carries **two**
canonical blocks (heading through blank-line boundary), the rewriter
replaces *both* of them — every matching block, not only the first — with
the newly rendered section.  The backslash hypothesis keeps the rendered
section outside `re.sub`'s template-escape processing (where the program
would instead raise or emit converted escapes); the title and glue
hypotheses only pin the block boundaries (entry lines without newlines,
interstitial text without heading characters). -/
theorem replace_rewrites_every_matching_block
    (refs : List Entry) (t1 t2 mid tail : Chars)
    (hrefs : refs ≠ [])
    (hback : ∀ e ∈ refs, ∀ c ∈ e.1, c ≠ '\\')
    (h1 : ∀ c ∈ t1, c ≠ '\n') (h2 : ∀ c ∈ t2, c ≠ '\n')
    (hm : ∀ c ∈ mid, c ≠ '#') (ht : ∀ c ∈ tail, c ≠ '#') :
    updateContent refs Mode.replace
        (marker ++ ((str "- [[" ++ t1 ++ str "]]")
          ++ '\n' :: '\n' :: (mid ++ (marker ++ ((str "- [[" ++ t2 ++ str "]]")
          ++ '\n' :: '\n' :: tail)))))
      = WriteOutcome.write
          (render_section refs ++ (mid ++ (render_section refs ++ tail))) := by
  have hne : refs.isEmpty = false := by
    cases refs with
    | nil => exact absurd rfl hrefs
    | cons a l => rfl
  have hsec : hasSection (marker ++ ((str "- [[" ++ t1 ++ str "]]")
      ++ '\n' :: '\n' :: (mid ++ (marker ++ ((str "- [[" ++ t2 ++ str "]]")
      ++ '\n' :: '\n' :: tail))))) = true :=
    containsSub_of_leadsWith (leadsWith_append marker _)
  have htmpl : parseTemplate (render_section refs)
      = some ((render_section refs).map ReplPiece.lit) :=
    parseTemplate_no_backslash _ (render_section_no_backslash refs hback)
  unfold updateContent
  simp only [hne, hsec, Bool.false_eq_true, if_false, true_and, if_true, and_self,
    reduceCtorEq, if_neg, Bool.true_eq_false]
  rw [htmpl]
  show WriteOutcome.write (subAllT ((render_section refs).map ReplPiece.lit) _) = _
  rw [subAllT_lit]
  have step1 := subAll_marker (render_section refs)
    ((str "- [[" ++ t1 ++ str "]]")
      ++ '\n' :: '\n' :: (mid ++ (marker ++ ((str "- [[" ++ t2 ++ str "]]")
      ++ '\n' :: '\n' :: tail))))
  rw [step1, blockSplit_no_newline _ _ (entry_chars_no_newline t1 h1)]
  rw [show ((str "- [[" ++ t1 ++ str "]]") ++ ['\n', '\n'],
      mid ++ (marker ++ ((str "- [[" ++ t2 ++ str "]]") ++ '\n' :: '\n' :: tail))).2
    = mid ++ (marker ++ ((str "- [[" ++ t2 ++ str "]]") ++ '\n' :: '\n' :: tail)) from rfl]
  rw [subAll_pass _ _ _ hm, subAll_marker,
    blockSplit_no_newline _ _ (entry_chars_no_newline t2 h2)]
  rw [show ((str "- [[" ++ t2 ++ str "]]") ++ ['\n', '\n'], tail).2 = tail from rfl]
  rw [subAll_id _ _ ht]

/-! ### C4 (amended) — one entry per referencing source document -/

theorem dedupFirst_aux (l : List Chars) : ∀ (acc : List Chars),
    (∀ x, x ∈ l.foldl (fun a y => if y ∈ a then a else a ++ [y]) acc ↔ x ∈ acc ∨ x ∈ l)
    ∧ (acc.Nodup → (l.foldl (fun a y => if y ∈ a then a else a ++ [y]) acc).Nodup) := by
  induction l with
  | nil =>
    intro acc
    exact ⟨fun x => by simp, fun h => by simpa using h⟩
  | cons y l ih =>
    intro acc
    constructor
    · intro x
      simp only [List.foldl_cons]
      rw [(ih _).1 x]
      by_cases hy : y ∈ acc
      · simp only [if_pos hy, List.mem_cons]
        constructor
        · rintro (h | h)
          · exact Or.inl h
          · exact Or.inr (Or.inr h)
        · rintro (h | rfl | h)
          · exact Or.inl h
          · exact Or.inl hy
          · exact Or.inr h
      · simp only [if_neg hy, List.mem_append, List.mem_singleton, List.mem_cons]
        tauto
    · intro hacc
      simp only [List.foldl_cons]
      apply (ih _).2
      by_cases hy : y ∈ acc
      · simpa [if_pos hy] using hacc
      · simp only [if_neg hy]
        simp [List.nodup_append, hacc, hy]

theorem dedupFirst_mem (l : List Chars) (x : Chars) : x ∈ dedupFirst l ↔ x ∈ l := by
  have := (dedupFirst_aux l []).1 x
  simpa [dedupFirst] using this

theorem dedupFirst_nodup (l : List Chars) : (dedupFirst l).Nodup := by
  have := (dedupFirst_aux l []).2 List.nodup_nil
  simpa [dedupFirst] using this

theorem docRefs_nodup (vault : List Doc) (d : Doc) : (docRefs vault d).Nodup := by
  unfold docRefs
  exact dedupFirst_nodup _

theorem lookupIdx_appendEntry_self (idx : Index) (k : Chars) (e : Entry) :
    lookupIdx (appendEntry idx k e) k = lookupIdx idx k ++ [e] := by
  induction idx with
  | nil => simp [appendEntry, lookupIdx]
  | cons kv rest ih =>
    obtain ⟨k0, v⟩ := kv
    by_cases hk : k0 = k
    · subst hk
      simp [appendEntry, lookupIdx]
    · simp [appendEntry, lookupIdx, hk, ih]

theorem lookupIdx_appendEntry_ne (idx : Index) (k k' : Chars) (e : Entry) (h : k' ≠ k) :
    lookupIdx (appendEntry idx k e) k' = lookupIdx idx k' := by
  induction idx with
  | nil =>
    simp only [appendEntry, lookupIdx]
    rw [if_neg (fun hh => h hh.symm)]
  | cons kv rest ih =>
    obtain ⟨k0, v⟩ := kv
    by_cases hk : k0 = k
    · subst hk
      simp [appendEntry, lookupIdx, Ne.symm h]
    · by_cases h2 : k0 = k'
      · simp [appendEntry, lookupIdx, hk, h2, h]
      · simp [appendEntry, lookupIdx, hk, h2, ih]

theorem titleLookup_title {vault : List Doc} {r p : Chars}
    (h : titleLookup vault r = some p) : extract_note_title p = r := by
  obtain ⟨d, _, hp, ht⟩ := titleLookup_eq_some h
  rw [hp] at ht
  exact ht

/-- The entries one scanned document contributes against one target. -/
def contribution (vault : List Doc) (tgt : Chars) (d : Doc) : List Entry :=
  ((docRefs vault d).filter (fun r => decide (titleLookup vault r = some tgt))).map
    (fun _ => (extract_note_title d.path, d.path))

theorem lookupIdx_refStep_foldl (vault : List Doc) (e : Entry) (tgt : Chars) :
    ∀ (rs : List Chars) (idx : Index),
      lookupIdx (rs.foldl (refStep vault e) idx) tgt
        = lookupIdx idx tgt
          ++ (rs.filter (fun r => decide (titleLookup vault r = some tgt))).map
              (fun _ => e) := by
  intro rs
  induction rs with
  | nil => intro idx; simp
  | cons r rs ih =>
    intro idx
    simp only [List.foldl_cons]
    rw [ih]
    unfold refStep
    cases hl : titleLookup vault r with
    | none => simp [List.filter_cons, hl]
    | some t' =>
      by_cases htt : t' = tgt
      · subst htt
        simp [List.filter_cons, hl, lookupIdx_appendEntry_self]
      · simp [List.filter_cons, hl, htt,
          lookupIdx_appendEntry_ne idx t' tgt e (fun hh => htt hh.symm)]

theorem lookupIdx_generate_aux (vault : List Doc) (tgt : Chars) :
    ∀ (ds : List Doc) (idx : Index),
      lookupIdx (ds.foldl (addDocRefs vault) idx) tgt
        = lookupIdx idx tgt ++ (ds.map (contribution vault tgt)).flatten := by
  intro ds
  induction ds with
  | nil => intro idx; simp
  | cons d ds ih =>
    intro idx
    simp only [List.foldl_cons, List.map_cons, List.flatten_cons]
    rw [ih]
    unfold addDocRefs
    rw [lookupIdx_refStep_foldl]
    unfold contribution
    rw [List.append_assoc]

/-- The per-target reference list of the index, characterized: each
scanned document contributes, in scan order, one entry per deduplicated
reference of its content resolving to the target. -/
theorem lookupIdx_generate (vault : List Doc) (tgt : Chars) :
    lookupIdx (generate_backlinks vault) tgt = (vault.map (contribution vault tgt)).flatten := by
  have := lookupIdx_generate_aux vault tgt vault []
  simpa [generate_backlinks, lookupIdx] using this

theorem countP_map_const {α β : Type} (l : List α) (e : β) (p : β → Bool) :
    List.countP p (l.map (fun _ => e)) = if p e then l.length else 0 := by
  induction l with
  | nil => simp
  | cons a l ih =>
    simp only [List.map_cons, List.countP_cons, ih]
    by_cases hp : p e = true
    · simp [hp]
    · simp [hp]

theorem length_filter_eq_one {α : Type} (l : List α) (q : α → Bool) (a : α)
    (hnd : l.Nodup) (hq : ∀ x, q x = true → x = a) (hqa : q a = true) (ha : a ∈ l) :
    (l.filter q).length = 1 := by
  have hmem : a ∈ l.filter q := List.mem_filter.mpr ⟨ha, hqa⟩
  have hall : ∀ x ∈ l.filter q, x = a := fun x hx => hq x (List.mem_filter.mp hx).2
  have hndf : (l.filter q).Nodup := hnd.filter q
  cases hf : l.filter q with
  | nil =>
    rw [hf] at hmem
    simp at hmem
  | cons x xs =>
    cases xs with
    | nil => simp
    | cons y ys =>
      exfalso
      rw [hf] at hall hndf
      have hx : x = a := hall x (List.mem_cons_self x _)
      have hy : y = a := hall y (List.mem_cons_of_mem x (List.mem_cons_self y ys))
      subst hx
      subst hy
      simp at hndf

theorem map_sum_single {α : Type} [DecidableEq α] (f : α → Nat) (a : α) (hfa : f a = 1) :
    ∀ (l : List α), a ∈ l → l.count a = 1 → (∀ x ∈ l, x ≠ a → f x = 0) →
      (l.map f).sum = 1 := by
  intro l
  induction l with
  | nil => intro ha; simp at ha
  | cons x l ih =>
    intro ha hc h0
    simp only [List.map_cons, List.sum_cons]
    by_cases hx : x = a
    · subst hx
      rw [hfa]
      have hcount : l.count x = 0 := by
        rw [List.count_cons_self] at hc
        omega
      have hnotin : x ∉ l := List.count_eq_zero.mp hcount
      have hz : (l.map f).sum = 0 := by
        apply List.sum_eq_zero
        intro n hn
        obtain ⟨y, hy, rfl⟩ := List.mem_map.mp hn
        exact h0 y (List.mem_cons_of_mem _ hy) (fun hya => hnotin (hya ▸ hy))
      omega
    · have hfx : f x = 0 := h0 x (List.mem_cons_self x l) hx
      rw [hfx]
      have ha' : a ∈ l := by
        rcases List.mem_cons.mp ha with h | h
        · exact absurd h.symm hx
        · exact h
      have hc' : l.count a = 1 := by
        rw [List.count_cons_of_ne (fun h => hx h.symm)] at hc
        exact hc
      have := ih ha' hc' (fun y hy hya => h0 y (List.mem_cons_of_mem _ hy) hya)
      omega

/-- C4 (amended): deduplication is per source *document* (via the per-file
reference set), not per source title.  When `d1` is the only scanned
document bearing its title, the target's title resolves to `tgt` and
`d1`'s deduplicated references contain the target's title (as any number
of `[[...]]` mentions produces once), then the reference list recorded for
`tgt` carries an entry titled `Title(d1)` exactly once. -/
theorem backlink_entry_once_per_source (vault : List Doc) (d1 : Doc) (tgt : Chars)
    (hmem : d1 ∈ vault) (hcount : vault.count d1 = 1)
    (huniq : ∀ d ∈ vault, extract_note_title d.path = extract_note_title d1.path → d = d1)
    (hres : titleLookup vault (extract_note_title tgt) = some tgt)
    (href : extract_note_title tgt ∈ docRefs vault d1) :
    List.countP (fun e => e.1 == extract_note_title d1.path)
        (lookupIdx (generate_backlinks vault) tgt) = 1 := by
  rw [lookupIdx_generate, List.countP_flatten, List.map_map]
  have hcomp : (List.countP (fun e => e.1 == extract_note_title d1.path))
      ∘ (contribution vault tgt)
    = fun d => List.countP (fun e => e.1 == extract_note_title d1.path)
        (contribution vault tgt d) := rfl
  rw [hcomp]
  apply map_sum_single _ d1 _ vault hmem hcount
  · intro x hx hne
    unfold contribution
    rw [countP_map_const]
    rw [if_neg]
    intro hbeq
    exact hne (huniq x hx (by simpa using hbeq))
  · unfold contribution
    rw [countP_map_const]
    rw [if_pos (by simp)]
    apply length_filter_eq_one _ _ (extract_note_title tgt) (docRefs_nodup vault d1)
    · intro x hx
      have hx' : titleLookup vault x = some tgt := of_decide_eq_true hx
      exact (titleLookup_title hx').symm
    · exact decide_eq_true hres
    · exact href

/-- Witness for the amended C4 at a concrete vault. -/
theorem backlink_entry_once_per_source_witness :
    (⟨str "A.md", str "x[[T]]"⟩ : Doc) ∈
        ([⟨str "A.md", str "x[[T]]"⟩, ⟨str "T.md", str "hi"⟩] : List Doc)
    ∧ ([⟨str "A.md", str "x[[T]]"⟩, ⟨str "T.md", str "hi"⟩] : List Doc).count
        ⟨str "A.md", str "x[[T]]"⟩ = 1
    ∧ titleLookup [⟨str "A.md", str "x[[T]]"⟩, ⟨str "T.md", str "hi"⟩]
        (extract_note_title (str "T.md")) = some (str "T.md")
    ∧ extract_note_title (str "T.md")
        ∈ docRefs [⟨str "A.md", str "x[[T]]"⟩, ⟨str "T.md", str "hi"⟩]
            ⟨str "A.md", str "x[[T]]"⟩
    ∧ List.countP (fun e => e.1 == extract_note_title (str "A.md"))
        (lookupIdx (generate_backlinks
          [⟨str "A.md", str "x[[T]]"⟩, ⟨str "T.md", str "hi"⟩]) (str "T.md")) = 1 :=
  ⟨by decide, by decide, by decide, by decide,
    backlink_entry_once_per_source
      [⟨str "A.md", str "x[[T]]"⟩, ⟨str "T.md", str "hi"⟩]
      ⟨str "A.md", str "x[[T]]"⟩ (str "T.md")
      (by decide) (by decide) (by decide) (by decide) (by decide)⟩

/-- Witness for the amended C2 at concrete values. -/
theorem replace_rewrites_every_matching_block_witness :
    ([(str "A", str "A.md")] : List Entry) ≠ []
    ∧ (∀ e ∈ ([(str "A", str "A.md")] : List Entry), ∀ c ∈ e.1, c ≠ '\\')
    ∧ updateContent [(str "A", str "A.md")] Mode.replace
        (marker ++ ((str "- [[" ++ str "X" ++ str "]]")
          ++ '\n' :: '\n' :: (str "mid" ++ (marker ++ ((str "- [[" ++ str "Y" ++ str "]]")
          ++ '\n' :: '\n' :: str "tail")))))
      = WriteOutcome.write (render_section [(str "A", str "A.md")]
          ++ (str "mid" ++ (render_section [(str "A", str "A.md")] ++ str "tail"))) :=
  ⟨by decide, by decide, replace_rewrites_every_matching_block [(str "A", str "A.md")]
    (str "X") (str "Y") (str "mid") (str "tail")
    (by decide) (by decide) (by decide) (by decide) (by decide) (by decide)⟩

end BackLinker



